import Mathlib

/-!
Verification of the puriFIR minimum-phase impulse-response converter
(TypeScript source `src/PuriFIR.ts`, per-channel variant: the class whose
`process` iterates `for (let channel = 0; channel < 2; channel++)`).

The numeric code is embedded over the exact reals: JavaScript `number`
arithmetic is modelled by `ℝ`, `Math.cos/sin/log/sqrt` by the Mathlib
functions, and `Math.log(n)/Math.log(2)` by its exact value (an integer
for the power-of-two lengths the algorithm is designed for).  Arrays are
`List`s; out-of-range reads use the explicit defaults of `List.getD`.
Loops are folds over the ranges the source iterates.
-/

namespace PuriFIR

/-- Complex value, mirroring the source's `{ re, im }` records. -/
@[ext]
structure Cx where
  re : ℝ
  im : ℝ

/-- `bitReverse(x, log2n)`: the shift/or loop
`n <<= 1; n |= (x & 1); x >>= 1` executed `log2n` times. -/
def bitReverse (x log2n : ℕ) : ℕ :=
  ((List.range log2n).foldl (fun p _ => (2 * p.1 + p.2 % 2, p.2 / 2)) (0, x)).1

/-- Fuel-driven floor of the base-2 logarithm. -/
def log2Aux : ℕ → ℕ → ℕ
  | 0, _ => 0
  | fuel + 1, n => if 2 ≤ n then log2Aux fuel (n / 2) + 1 else 0

/-- Embeds `const log2n = Math.log(n) / Math.log(2)` as used by the loop
bounds `s <= log2n` and `i < log2n`: for the power-of-two lengths the
engine is specified for this is exactly `log2 n`. -/
def log2floor (n : ℕ) : ℕ := log2Aux n n

/-- The offsets `track` visited by the overlapping-window loop
`while (track + windowSize <= length) { ...; track += jump }`. -/
def frameOffsetsAux (N jump len : ℕ) : ℕ → ℕ → List ℕ
  | 0, _ => []
  | fuel + 1, track =>
    if track + N ≤ len then track :: frameOffsetsAux N jump len fuel (track + jump)
    else []

/-- Offsets analyzed by the envelope loop of `process` for a channel of
length `len` and window size `N` (`jump = windowSize / 2`). -/
def frameOffsets (N len : ℕ) : List ℕ := frameOffsetsAux N (N / 2) len (len + 1) 0

noncomputable section

/-- `createHanningWindow`: `0.5 - 0.5 * Math.cos(2 * Math.PI * i / windowSize)`. -/
def createHanningWindow (N : ℕ) : List ℝ :=
  (List.range N).map fun i => 0.5 - 0.5 * Real.cos (2 * Real.pi * (i : ℝ) / (N : ℝ))

/-- One butterfly of the FFT inner loop: reads `X[k+m2]` and `X[k]`,
forms `t = w * X[k+m2]`, `u = X[k]`, writes `X[k] = u + t` and
`X[k+m2] = u - t`. -/
def butterfly (w : Cx) (m2 : ℕ) (X : List Cx) (k : ℕ) : List Cx :=
  let xkm := X.getD (k + m2) ⟨0, 0⟩
  let t : Cx := ⟨w.re * xkm.re - w.im * xkm.im, w.re * xkm.im + w.im * xkm.re⟩
  let u := X.getD k ⟨0, 0⟩
  (X.set k ⟨u.re + t.re, u.im + t.im⟩).set (k + m2) ⟨u.re - t.re, u.im - t.im⟩

/-- One stage `s` of the iterative FFT: `m = 1 << s`, `m2 = m >> 1`,
`wm = (cos(pi/m2), sin(pi/m2))`; for each `j < m2` run the butterflies at
`k = j, j+m, j+2m, ...` with the current `w`, then `w *= wm`. -/
def stageStep (n : ℕ) (X : List Cx) (s : ℕ) : List Cx :=
  let m : ℕ := 2 ^ s
  let m2 : ℕ := m / 2
  let wm : Cx := ⟨Real.cos (Real.pi / (m2 : ℝ)), Real.sin (Real.pi / (m2 : ℝ))⟩
  ((List.range m2).foldl
    (fun (p : Cx × List Cx) j =>
      (⟨p.1.re * wm.re - p.1.im * wm.im, p.1.re * wm.im + p.1.im * wm.re⟩,
       ((List.range n).filter (fun k => k % m == j)).foldl (butterfly p.1 m2) p.2))
    (⟨1, 0⟩, X)).2

/-- The stage loop `for (let s = 1; s <= log2n; s++)`. -/
def fftStages (n : ℕ) (X : List Cx) : List Cx :=
  (List.range' 1 (log2floor n)).foldl (stageStep n) X

/-- Bit-reversal load of a real input: `X[i] = { re: x[rev], im: 0 }`. -/
def fftInit (x : List ℝ) : List Cx :=
  (List.range x.length).map fun i => ⟨x.getD (bitReverse i (log2floor x.length)) 0, 0⟩

/-- `fft` of the per-channel class (signature `fft(x: number[])`): real
input only, promoted to zero-imaginary complex at the bit-reversal load. -/
def fft (x : List ℝ) : List Cx := fftStages x.length (fftInit x)

/-- `fft` of the first (channel-averaging) class, which accepts complex
input (`x: number[] | {re,im}[]`): the bit-reversal load copies complex
entries, the stage loop is identical. -/
def fftC (x : List Cx) : List Cx :=
  fftStages x.length
    ((List.range x.length).map fun i => x.getD (bitReverse i (log2floor x.length)) ⟨0, 0⟩)

/-- `ifft` of the per-channel class: conjugates the input, keeps only the
real parts (`xReals[i] = XConj[i].re`) because its `fft` takes `number[]`,
runs the forward fft, then conjugates and rescales by `1/n`. -/
def ifft (X : List Cx) : List Cx :=
  let n := X.length
  let xConj := X.map fun c => Cx.mk c.re (-c.im)
  let xReals := xConj.map Cx.re
  let x := fft xReals
  x.map fun c => Cx.mk (c.re / (n : ℝ)) (-c.im / (n : ℝ))

/-- `ifft` of the first class (and the spec's `inverseTransform`):
conjugate the input, apply the complex forward transform, conjugate the
result and divide every element by `n`. -/
def inverseTransformV1 (X : List Cx) : List Cx :=
  let n := X.length
  let xConj := X.map fun c => Cx.mk c.re (-c.im)
  let x := fftC xConj
  x.map fun c => Cx.mk (c.re / (n : ℝ)) (-c.im / (n : ℝ))

/-- Per-bin magnitudes of one analysis frame: the frame at offset `track`
is windowed by the Hann coefficients, transformed, and
`mag = sqrt(re*re + im*im)` is taken per bin. -/
def frameMags (N : ℕ) (chan : List ℝ) (track : ℕ) : List ℝ :=
  let hann := createHanningWindow N
  let buffer := (List.range N).map fun i => chan.getD (track + i) 0 * hann.getD i 0
  (fft buffer).map fun c => Real.sqrt (c.re * c.re + c.im * c.im)

/-- One iteration of the peak-hold update:
`amplitudes[i] = Math.max(amplitudes[i], mag)` for every bin. -/
def envStep (N : ℕ) (chan : List ℝ) (amps : List ℝ) (track : ℕ) : List ℝ :=
  (List.range N).map fun i => max (amps.getD i 0) ((frameMags N chan track).getD i 0)

/-- The magnitude envelope: the peak-hold loop of `process`, starting
from the all-zero `amplitudes` array. -/
def envelope (N : ℕ) (chan : List ℝ) : List ℝ :=
  (frameOffsets N chan.length).foldl (envStep N chan) (List.replicate N 0)

/-- The Hilbert mask: zeros, then `H[0] = 1`, `H[N/2] = 1`, and `H[i] = 2`
for `1 <= i < N/2`. -/
def hilbertMask (N : ℕ) : List ℝ :=
  (List.range' 1 (N / 2 - 1)).foldl (fun H i => H.set i 2)
    (((List.replicate N (0 : ℝ)).set 0 1).set (N / 2) 1)

/-- The per-channel body of `process`: envelope, log-magnitude, cepstrum,
Hilbert mask, analytic signal, minimum phase, minimum-phase spectrum,
inverse transform, real part. -/
def processChannel (N : ℕ) (chan : List ℝ) : List ℝ :=
  let amplitudes := envelope N chan
  let logMag := (List.range N).map fun i => Real.log (amplitudes.getD i 0 + 0.000001)
  let cepstrum := fft logMag
  let H := hilbertMask N
  let cepstrumHilbert := (List.range N).map fun i =>
    Cx.mk ((cepstrum.getD i ⟨0, 0⟩).re * H.getD i 0) ((cepstrum.getD i ⟨0, 0⟩).im * H.getD i 0)
  let analyticSignal := ifft cepstrumHilbert
  let minPhase := (List.range N).map fun i => -(analyticSignal.getD i ⟨0, 0⟩).im
  let minPhaseSpectrum := (List.range N).map fun i =>
    Cx.mk (amplitudes.getD i 0 * Real.cos (minPhase.getD i 0))
          (amplitudes.getD i 0 * Real.sin (minPhase.getD i 0))
  let impulse := ifft minPhaseSpectrum
  (List.range N).map fun i => (impulse.getD i ⟨0, 0⟩).re

/-- The maximum scan of `normalize`: `max = Math.max(max, Math.abs(buffer[channel][i]))`
over channels `0, 1` and indices `i < windowSize`, starting from `0`. -/
def maxAbs (N : ℕ) (buf : List (List ℝ)) : ℝ :=
  (List.range 2).foldl
    (fun m ch => (List.range N).foldl (fun m i => max m |(buf.getD ch []).getD i 0|) m) 0

/-- The in-place scaling loop of `normalize` on one channel:
`buffer[channel][i] /= max` for `i < windowSize`. -/
def scaleChannel (N : ℕ) (m : ℝ) (ch : List ℝ) : List ℝ :=
  (List.range N).foldl (fun c i => c.set i (c.getD i 0 / m)) ch

/-- `normalize`: find the maximum absolute value over both channels;
if it is positive, divide every scanned sample by it; otherwise leave
the buffer untouched. -/
def normalize (N : ℕ) (buf : List (List ℝ)) : List (List ℝ) :=
  let m := maxAbs N buf
  if 0 < m then
    (List.range 2).foldl (fun b ch => b.set ch (scaleChannel N m (b.getD ch []))) buf
  else buf

/-- The output assembled by `process` before the final `normalize` call:
each of the two channels is processed independently. -/
def preNormOutput (N : ℕ) (input : List (List ℝ)) : List (List ℝ) :=
  [processChannel N (input.getD 0 []), processChannel N (input.getD 1 [])]

/-- `process`: the only validation is the guard
`if (inputBuffer[0].length < this.windowSize) throw ...`; afterwards the
two channels are processed and the result is normalized. -/
def process (N : ℕ) (input : List (List ℝ)) : Except String (List (List ℝ)) :=
  if (input.getD 0 []).length < N then Except.error "Input buffer is too short!"
  else Except.ok (normalize N (preNormOutput N input))

end

/-! ### Concrete FFT evaluations (exact trigonometric values at lengths 2 and 4) -/

theorem fft_0100 : fft [(0 : ℝ), 1, 0, 0] = [⟨1, 0⟩, ⟨0, 1⟩, ⟨-1, 0⟩, ⟨0, -1⟩] := by
  have h4 : List.range 4 = [0, 1, 2, 3] := rfl
  have h2 : List.range 2 = [0, 1] := rfl
  have h1 : List.range 1 = [0] := rfl
  have hr : List.range' 1 2 = [1, 2] := rfl
  simp [fft, fftStages, fftInit, stageStep, butterfly, bitReverse, log2floor, log2Aux,
    h4, h2, h1, hr, Real.cos_pi, Real.sin_pi, Real.cos_pi_div_two, Real.sin_pi_div_two]

theorem fft_one_zero_negone_zero :
    fft [(1 : ℝ), 0, -1, 0] = [⟨0, 0⟩, ⟨2, 0⟩, ⟨0, 0⟩, ⟨2, 0⟩] := by
  have h4 : List.range 4 = [0, 1, 2, 3] := rfl
  have h2 : List.range 2 = [0, 1] := rfl
  have h1 : List.range 1 = [0] := rfl
  have hr : List.range' 1 2 = [1, 2] := rfl
  simp [fft, fftStages, fftInit, stageStep, butterfly, bitReverse, log2floor, log2Aux,
    h4, h2, h1, hr, Real.cos_pi, Real.sin_pi, Real.cos_pi_div_two, Real.sin_pi_div_two]
  norm_num

theorem ifft_roundtrip_0100 :
    ifft (fft [(0 : ℝ), 1, 0, 0]) = [⟨0, 0⟩, ⟨1 / 2, 0⟩, ⟨0, 0⟩, ⟨1 / 2, 0⟩] := by
  rw [fft_0100]
  show ifft [⟨1, 0⟩, ⟨0, 1⟩, ⟨-1, 0⟩, ⟨0, -1⟩] = [⟨0, 0⟩, ⟨1 / 2, 0⟩, ⟨0, 0⟩, ⟨1 / 2, 0⟩]
  simp only [ifft]
  norm_num [fft_one_zero_negone_zero]

theorem ifft_i0 : ifft [⟨0, 1⟩, ⟨0, 0⟩] = [⟨0, 0⟩, ⟨0, 0⟩] := by
  have h2 : List.range 2 = [0, 1] := rfl
  have h1 : List.range 1 = [0] := rfl
  have hr : List.range' 1 1 = [1] := rfl
  simp [ifft, fft, fftStages, fftInit, stageStep, butterfly, bitReverse, log2floor, log2Aux,
    h2, h1, hr, Real.cos_pi, Real.sin_pi]

theorem invV1_i0 : inverseTransformV1 [⟨0, 1⟩, ⟨0, 0⟩] = [⟨0, 1 / 2⟩, ⟨0, 1 / 2⟩] := by
  have h2 : List.range 2 = [0, 1] := rfl
  have h1 : List.range 1 = [0] := rfl
  have hr : List.range' 1 1 = [1] := rfl
  simp [inverseTransformV1, fftC, fftStages, stageStep, butterfly, bitReverse, log2floor,
    log2Aux, h2, h1, hr, Real.cos_pi, Real.sin_pi]

/-! ### Claims -/

/-- C1: the round-trip law `inverseTransform (transform x) = x` fails on
the code.  For the power-of-two-length real sequence `x = [0, 1, 0, 0]`
the composition evaluates exactly (no floating-point tolerance involved)
to `[0, 1/2, 0, 1/2]`, the even-symmetrized part of `x`, because `ifft`
feeds only the real part of the conjugated spectrum back into `fft`. -/
theorem C1_fft_roundtrip_code_bug :
    ifft (fft [(0 : ℝ), 1, 0, 0]) = [⟨0, 0⟩, ⟨1 / 2, 0⟩, ⟨0, 0⟩, ⟨1 / 2, 0⟩] ∧
    ifft (fft [(0 : ℝ), 1, 0, 0]) ≠ ([0, 1, 0, 0] : List ℝ).map (fun r => Cx.mk r 0) := by
  refine ⟨ifft_roundtrip_0100, ?_⟩
  rw [ifft_roundtrip_0100]
  norm_num [Cx.mk.injEq]

/-- C2: `inverseTransform` does not equal the spec's composition
(conjugate, forward transform, conjugate, divide by N): on
`X = [i, 0]` the code's `ifft` returns `[0, 0]` (the imaginary part of
the conjugated input is discarded before the forward fft), while the
composition — which is exactly the first class's `ifft` — returns
`[i/2, i/2]`. -/
theorem C2_ifft_drops_imaginary_code_bug :
    ifft [⟨0, 1⟩, ⟨0, 0⟩] = [⟨0, 0⟩, ⟨0, 0⟩] ∧
    inverseTransformV1 [⟨0, 1⟩, ⟨0, 0⟩] = [⟨0, 1 / 2⟩, ⟨0, 1 / 2⟩] ∧
    ifft [⟨0, 1⟩, ⟨0, 0⟩] ≠ inverseTransformV1 [⟨0, 1⟩, ⟨0, 0⟩] := by
  refine ⟨ifft_i0, invV1_i0, ?_⟩
  rw [ifft_i0, invV1_i0]
  norm_num [Cx.mk.injEq]

/-- C3 counterexample: with window size 3000 (not a power of two),
`process` does not raise any `InvalidWindowSize` error: on a short input
it raises the length-guard error instead. -/
theorem C3_cex_no_invalid_window_size_error :
    (¬ ∃ k : ℕ, 3000 = 2 ^ k) ∧
    process 3000 [[0], [0]] = Except.error "Input buffer is too short!" ∧
    process 3000 [[0], [0]] ≠ Except.error "InvalidWindowSize" := by
  refine ⟨?_, by simp [process], by simp [process]⟩
  rintro ⟨k, h⟩
  have hk : k < 12 := by
    by_contra hk
    push_neg at hk
    have hle : (2 : ℕ) ^ 12 ≤ 2 ^ k := Nat.pow_le_pow_right (by norm_num) hk
    rw [← h] at hle
    norm_num at hle
  interval_cases k <;> norm_num at h

/-- C3 (amended): `process` performs no window-size validation at all;
for any window size the only error it can raise is the length-guard
message thrown when channel 0 is shorter than the window size. -/
theorem C3_only_error_is_too_short :
    ∀ (N : ℕ) (input : List (List ℝ)) (e : String),
      process N input = Except.error e → e = "Input buffer is too short!" := by
  intro N input e h
  unfold process at h
  split at h
  · simpa using h.symm
  · exact Except.noConfusion h

theorem C3_witness :
    process 3000 [[0], [0]] = Except.error "Input buffer is too short!" ∧
    "Input buffer is too short!" = "Input buffer is too short!" :=
  ⟨by simp [process],
   C3_only_error_is_too_short 3000 [[0], [0]] "Input buffer is too short!" (by simp [process])⟩

/-- C4 counterexample: an input whose second channel is shorter than the
window size is not rejected: `process` succeeds and produces output. -/
theorem C4_cex_short_second_channel_accepted :
    (([[0, 0], [0]] : List (List ℝ)).getD 1 []).length < 2 ∧
    (process 2 [[0, 0], [0]]).isOk = true := by
  refine ⟨by simp, ?_⟩
  simp [process, Except.isOk, Except.toBool]

/-- C4 (amended): `process` fails with the insufficient-samples error
exactly when channel 0 is shorter than the window size: the lengths of
the other channels are never checked. -/
theorem C4_guard_checks_only_channel_zero :
    ∀ (N : ℕ) (input : List (List ℝ)),
      process N input = Except.error "Input buffer is too short!" ↔
        (input.getD 0 []).length < N := by
  intro N input
  constructor
  · intro h
    by_contra hlt
    unfold process at h
    rw [if_neg hlt] at h
    exact Except.noConfusion h
  · intro h
    unfold process
    rw [if_pos h]

/-- C5 counterexample: for a 4096-sample channel and window size 2048,
the envelope loop does not analyze exactly the two offsets 0 and 1024. -/
theorem C5_cex_not_two_frames : frameOffsets 2048 4096 ≠ [0, 1024] := by decide

/-- C5 (amended): for a 4096-sample channel and window size 2048, the
envelope loop analyzes exactly three overlapping frames, at offsets 0,
1024 and 2048: the loop condition `track + windowSize <= length` also
admits the final exactly-fitting frame. -/
theorem C5_three_frames :
    frameOffsets 2048 4096 = [0, 1024, 2048] ∧ (frameOffsets 2048 4096).length = 3 := by
  constructor <;> decide

/-! ### Helper lemmas about the envelope fold -/

theorem getD_map_range {α : Type} (f : ℕ → α) (N i : ℕ) (d : α) (h : i < N) :
    ((List.range N).map f).getD i d = f i := by
  simp [List.getD_eq_getElem?_getD, List.getElem?_map, List.getElem?_range h]

theorem envStep_getD (N : ℕ) (chan amps : List ℝ) (t i : ℕ) (h : i < N) :
    (envStep N chan amps t).getD i 0
      = max (amps.getD i 0) ((frameMags N chan t).getD i 0) :=
  getD_map_range _ N i 0 h

theorem foldl_envStep_getD (N : ℕ) (chan : List ℝ) (i : ℕ) (h : i < N) :
    ∀ (L : List ℕ) (amps : List ℝ),
      (L.foldl (envStep N chan) amps).getD i 0
        = (L.map fun t => (frameMags N chan t).getD i 0).foldl max (amps.getD i 0) := by
  intro L
  induction L with
  | nil => intro amps; simp
  | cons t L ih =>
    intro amps
    simp only [List.foldl_cons, List.map_cons]
    rw [ih, envStep_getD N chan amps t i h]

theorem envPrefix_mono (N : ℕ) (chan : List ℝ) (i k : ℕ) (h : i < N) :
    (((frameOffsets N chan.length).take k).foldl (envStep N chan)
        (List.replicate N 0)).getD i 0
      ≤ (((frameOffsets N chan.length).take (k + 1)).foldl (envStep N chan)
        (List.replicate N 0)).getD i 0 := by
  rw [List.take_succ]
  cases hk : (frameOffsets N chan.length)[k]? with
  | none => simp
  | some t =>
    simp only [Option.toList, List.foldl_append, List.foldl_cons, List.foldl_nil]
    rw [envStep_getD N chan _ t i h]
    exact le_max_left _ _

/-- C6: for every channel with length at least N, the magnitude envelope
at each bin `i` is the maximum, over all analyzed frames, of the
magnitude of bin `i` of the FFT of the Hann-windowed frame, folded with
`max` from the all-zero initial array; and the per-bin value after `k+1`
frames is at least the value after `k` frames (peak-hold monotonicity). -/
theorem C6_envelope_peak_hold :
    ∀ (N : ℕ) (chan : List ℝ) (i : ℕ), N ≤ chan.length → i < N →
      ((envelope N chan).getD i 0
          = ((frameOffsets N chan.length).map fun t => (frameMags N chan t).getD i 0).foldl max 0)
        ∧ ∀ k : ℕ,
            (((frameOffsets N chan.length).take k).foldl (envStep N chan)
                (List.replicate N 0)).getD i 0
              ≤ (((frameOffsets N chan.length).take (k + 1)).foldl (envStep N chan)
                (List.replicate N 0)).getD i 0 := by
  intro N chan i _hlen hi
  refine ⟨?_, fun k => envPrefix_mono N chan i k hi⟩
  rw [envelope, foldl_envStep_getD N chan i hi]
  congr 1
  simp [List.getD_eq_getElem?_getD, List.getElem?_replicate, hi]

theorem C6_witness :
    2 ≤ ([(0 : ℝ), 0]).length ∧ 0 < 2 ∧
    (((envelope 2 [(0 : ℝ), 0]).getD 0 0
        = ((frameOffsets 2 ([(0 : ℝ), 0]).length).map
            fun t => (frameMags 2 [(0 : ℝ), 0] t).getD 0 0).foldl max 0)
      ∧ ∀ k : ℕ,
          (((frameOffsets 2 ([(0 : ℝ), 0]).length).take k).foldl (envStep 2 [(0 : ℝ), 0])
              (List.replicate 2 0)).getD 0 0
            ≤ (((frameOffsets 2 ([(0 : ℝ), 0]).length).take (k + 1)).foldl
              (envStep 2 [(0 : ℝ), 0]) (List.replicate 2 0)).getD 0 0) :=
  ⟨by norm_num, by norm_num, C6_envelope_peak_hold 2 [0, 0] 0 (by norm_num) (by norm_num)⟩

/-- C7: the per-channel pipeline reads only its own channel: if two
inputs satisfying the precondition agree on channel `c` (`c < 2`), the
pre-normalization output channel `c` is identical. -/
theorem C7_channel_independence :
    ∀ (N : ℕ) (input1 input2 : List (List ℝ)) (c : ℕ),
      c < 2 →
      N ≤ (input1.getD 0 []).length → N ≤ (input2.getD 0 []).length →
      input1.getD c [] = input2.getD c [] →
      (preNormOutput N input1).getD c [] = (preNormOutput N input2).getD c [] := by
  intro N i1 i2 c hc _h1 _h2 hag
  simp only [List.getD_eq_getElem?_getD] at hag
  interval_cases c <;> simp [preNormOutput, List.getD_eq_getElem?_getD, hag]

theorem C7_witness :
    (0 : ℕ) < 2 ∧
    2 ≤ (([[(1 : ℝ), 1], [2, 2]] : List (List ℝ)).getD 0 []).length ∧
    2 ≤ (([[(1 : ℝ), 1], [3, 3]] : List (List ℝ)).getD 0 []).length ∧
    ([[(1 : ℝ), 1], [2, 2]] : List (List ℝ)).getD 0 []
      = ([[(1 : ℝ), 1], [3, 3]] : List (List ℝ)).getD 0 [] ∧
    (preNormOutput 2 [[(1 : ℝ), 1], [2, 2]]).getD 0 []
      = (preNormOutput 2 [[(1 : ℝ), 1], [3, 3]]).getD 0 [] :=
  ⟨by norm_num, by norm_num, by norm_num, rfl,
   C7_channel_independence 2 [[1, 1], [2, 2]] [[1, 1], [3, 3]] 0 (by norm_num) (by norm_num)
     (by norm_num) rfl⟩

/-! ### Helper lemmas about normalize -/

theorem foldl_range_maxAbs :
    ∀ (ch : List ℝ) (m0 : ℝ),
      (List.range ch.length).foldl (fun m i => max m |ch.getD i 0|) m0
        = ch.foldl (fun m x => max m |x|) m0 := by
  intro ch
  induction ch with
  | nil => intro m0; simp
  | cons a t ih =>
    intro m0
    have hr : List.range (a :: t).length = 0 :: (List.range t.length).map Nat.succ := by
      simp [List.range_succ_eq_map]
    rw [hr]
    simp only [List.foldl_cons, List.foldl_map, List.getD_cons_zero, List.getD_cons_succ]
    exact ih (max m0 |a|)

theorem foldl_range_maxAbs' (N : ℕ) (ch : List ℝ) (h : ch.length = N) (m0 : ℝ) :
    (List.range N).foldl (fun m i => max m |ch.getD i 0|) m0
      = ch.foldl (fun m x => max m |x|) m0 := by
  subst h
  exact foldl_range_maxAbs ch m0

theorem maxAbs_pair (N : ℕ) (c0 c1 : List ℝ) (h0 : c0.length = N) (h1 : c1.length = N) :
    maxAbs N [c0, c1] = ((c0 ++ c1).map fun x => |x|).foldl max 0 := by
  have hr2 : List.range 2 = [0, 1] := rfl
  rw [maxAbs, hr2]
  simp only [List.foldl_cons, List.foldl_nil, List.getD_cons_zero, List.getD_cons_succ]
  rw [foldl_range_maxAbs' N c1 h1, foldl_range_maxAbs' N c0 h0, List.foldl_map,
    List.foldl_append]

theorem shift_foldl_set (m : ℝ) :
    ∀ (l : List ℕ) (h : ℝ) (t : List ℝ),
      l.foldl (fun c i => c.set (i + 1) (c.getD (i + 1) 0 / m)) (h :: t)
        = h :: l.foldl (fun c i => c.set i (c.getD i 0 / m)) t := by
  intro l
  induction l with
  | nil => intro h t; rfl
  | cons a l ih =>
    intro h t
    simp only [List.foldl_cons, List.set_cons_succ, List.getD_cons_succ]
    exact ih h _

theorem scaleChannel_eq_map (m : ℝ) :
    ∀ ch : List ℝ, scaleChannel ch.length m ch = ch.map fun x => x / m := by
  intro ch
  induction ch with
  | nil => rfl
  | cons a t ih =>
    have hr : List.range (a :: t).length = 0 :: (List.range t.length).map Nat.succ := by
      simp [List.range_succ_eq_map]
    rw [scaleChannel, hr]
    simp only [List.foldl_cons, List.foldl_map, List.set_cons_zero, List.getD_cons_zero]
    rw [shift_foldl_set]
    have ih' := ih
    rw [scaleChannel] at ih'
    rw [ih']
    simp

theorem scaleChannel_eq_map' (N : ℕ) (m : ℝ) (ch : List ℝ) (h : ch.length = N) :
    scaleChannel N m ch = ch.map fun x => x / m := by
  subst h
  exact scaleChannel_eq_map m ch

theorem normalize_pair (N : ℕ) (c0 c1 : List ℝ) (h0 : c0.length = N) (h1 : c1.length = N) :
    normalize N [c0, c1]
      = if 0 < maxAbs N [c0, c1]
        then [c0.map fun x => x / maxAbs N [c0, c1], c1.map fun x => x / maxAbs N [c0, c1]]
        else [c0, c1] := by
  simp only [normalize]
  split
  · have hr2 : List.range 2 = [0, 1] := rfl
    rw [hr2]
    simp only [List.foldl_cons, List.foldl_nil, List.getD_cons_zero, List.getD_cons_succ,
      List.set_cons_zero, List.set_cons_succ]
    rw [scaleChannel_eq_map' N _ c0 h0, scaleChannel_eq_map' N _ c1 h1]
  · rfl

theorem le_foldl_acc {α : Type} (f : ℝ → α → ℝ) (hf : ∀ m a, m ≤ f m a) :
    ∀ (l : List α) (m0 : ℝ), m0 ≤ l.foldl f m0 := by
  intro l
  induction l with
  | nil => intro m0; exact le_refl m0
  | cons a l ih => intro m0; exact le_trans (hf m0 a) (ih (f m0 a))

theorem maxAbs_nonneg (N : ℕ) (buf : List (List ℝ)) : 0 ≤ maxAbs N buf := by
  rw [maxAbs]
  exact le_foldl_acc _ (fun m ch => le_foldl_acc _ (fun m' i => le_max_left m' _) _ m) _ 0

theorem foldl_max_abs_div (m : ℝ) (hm : 0 < m) :
    ∀ (l : List ℝ) (a : ℝ),
      ((l.map fun x => x / m).foldl (fun acc x => max acc |x|) (a / m))
        = (l.foldl (fun acc x => max acc |x|) a) / m := by
  intro l
  induction l with
  | nil => intro a; rfl
  | cons x l ih =>
    intro a
    simp only [List.map_cons, List.foldl_cons]
    rw [abs_div, abs_of_pos hm, max_div_div_right (le_of_lt hm), ih]

/-- C8: for a two-channel buffer of equal channel lengths (equal to the
window size `normalize` scans), `normalize` computes the maximum absolute
value across all channels and samples; if it is positive every sample of
every channel is divided by it, otherwise the buffer is left untouched;
afterwards the maximum absolute sample value is 0 or 1. -/
theorem C8_normalize_correct :
    ∀ (N : ℕ) (c0 c1 : List ℝ), c0.length = N → c1.length = N →
      (maxAbs N [c0, c1] = ((c0 ++ c1).map fun x => |x|).foldl max 0) ∧
      (normalize N [c0, c1]
        = if 0 < maxAbs N [c0, c1]
          then [c0.map fun x => x / maxAbs N [c0, c1], c1.map fun x => x / maxAbs N [c0, c1]]
          else [c0, c1]) ∧
      (maxAbs N (normalize N [c0, c1]) = 0 ∨ maxAbs N (normalize N [c0, c1]) = 1) := by
  intro N c0 c1 h0 h1
  refine ⟨maxAbs_pair N c0 c1 h0 h1, normalize_pair N c0 c1 h0 h1, ?_⟩
  by_cases hm : 0 < maxAbs N [c0, c1]
  · right
    rw [normalize_pair N c0 c1 h0 h1, if_pos hm]
    set m := maxAbs N [c0, c1] with hmdef
    rw [maxAbs_pair N _ _ (by simp [h0]) (by simp [h1]), ← List.map_append, List.foldl_map]
    have h00 : (0 : ℝ) = 0 / m := (zero_div m).symm
    rw [h00, foldl_max_abs_div m hm]
    have hfold : (c0 ++ c1).foldl (fun acc x => max acc |x|) 0 = m := by
      rw [hmdef, maxAbs_pair N c0 c1 h0 h1, List.foldl_map]
    rw [hfold]
    exact div_self (ne_of_gt hm)
  · left
    rw [normalize_pair N c0 c1 h0 h1, if_neg hm]
    exact le_antisymm (not_lt.mp hm) (maxAbs_nonneg N [c0, c1])

theorem C8_witness :
    ([(2 : ℝ)]).length = 1 ∧ ([(0 : ℝ)]).length = 1 ∧
    ((maxAbs 1 [[(2 : ℝ)], [0]] = ((([(2 : ℝ)]) ++ [0]).map fun x => |x|).foldl max 0) ∧
     (normalize 1 [[(2 : ℝ)], [0]]
        = if 0 < maxAbs 1 [[(2 : ℝ)], [0]]
          then [([(2 : ℝ)]).map fun x => x / maxAbs 1 [[(2 : ℝ)], [0]],
                ([(0 : ℝ)]).map fun x => x / maxAbs 1 [[(2 : ℝ)], [0]]]
          else [[(2 : ℝ)], [0]]) ∧
     (maxAbs 1 (normalize 1 [[(2 : ℝ)], [0]]) = 0 ∨
       maxAbs 1 (normalize 1 [[(2 : ℝ)], [0]]) = 1)) :=
  ⟨rfl, rfl, C8_normalize_correct 1 [2] [0] rfl rfl⟩

/-! ### Helper lemmas about output lengths -/

theorem foldl_set_length (m : ℝ) :
    ∀ (l : List ℕ) (ch : List ℝ),
      (l.foldl (fun c i => c.set i (c.getD i 0 / m)) ch).length = ch.length := by
  intro l
  induction l with
  | nil => intro ch; rfl
  | cons i l ih => intro ch; rw [List.foldl_cons, ih]; simp

theorem scaleChannel_length (N : ℕ) (m : ℝ) (ch : List ℝ) :
    (scaleChannel N m ch).length = ch.length := by
  rw [scaleChannel]
  exact foldl_set_length m (List.range N) ch

theorem processChannel_length (N : ℕ) (chan : List ℝ) : (processChannel N chan).length = N := by
  simp [processChannel]

/-- C9: for a two-channel input whose channels are at least N samples
long (N the configured power-of-two window size), `process` succeeds and
returns exactly two channels, each of length N. -/
theorem C9_output_shape :
    ∀ (N : ℕ) (c0 c1 : List ℝ), N ≤ c0.length → N ≤ c1.length → (∃ k, N = 2 ^ k) →
      ∃ out, process N [c0, c1] = Except.ok out ∧ out.length = 2 ∧
        ∀ ch ∈ out, ch.length = N := by
  intro N c0 c1 h0 _h1 _hpow
  have hguard : ¬ (([c0, c1] : List (List ℝ)).getD 0 []).length < N := by
    simpa using not_lt.mpr h0
  refine ⟨normalize N (preNormOutput N [c0, c1]), ?_, ?_, ?_⟩
  · rw [process, if_neg hguard]
  · rw [preNormOutput,
      normalize_pair N _ _ (processChannel_length N _) (processChannel_length N _)]
    split <;> rfl
  · intro ch hch
    rw [preNormOutput,
      normalize_pair N _ _ (processChannel_length N _) (processChannel_length N _)] at hch
    split at hch <;>
      simp only [List.mem_cons, List.not_mem_nil, or_false] at hch <;>
      rcases hch with h | h <;> subst h <;>
      simp [processChannel_length]

theorem C9_witness :
    2 ≤ ([(0 : ℝ), 0]).length ∧ 2 ≤ ([(0 : ℝ), 0]).length ∧ (∃ k : ℕ, 2 = 2 ^ k) ∧
    (∃ out, process 2 [[(0 : ℝ), 0], [(0 : ℝ), 0]] = Except.ok out ∧ out.length = 2 ∧
      ∀ ch ∈ out, ch.length = 2) :=
  ⟨by norm_num, by norm_num, ⟨1, rfl⟩,
   C9_output_shape 2 [0, 0] [0, 0] (by norm_num) (by norm_num) ⟨1, rfl⟩⟩

end PuriFIR
